import Mathlib

/-!
# Verification of the Trellis curriculum graph construction engine

Shallow embedding of `src/graph_builder.py`: the node/edge data model, the
edge validator (`validate_edges`), the REQUIRES-cycle detector
(`validate_no_cycles`), the implicit hierarchy generator
(`generate_implicit_relationships`), the transitive reducer
(`prune_redundant_hierarchy`), and the `__main__` ingestion pipeline up to
the point where the Neo4j store would be invoked.

Python dictionaries for nodes and edges are modelled as structures with the
fields the engine reads (`id`, `label`; `source`, `target`, `relation`,
`generated`, plus an opaque `props` payload).  Python exceptions are
modelled with `Except`; logging has no observable effect and is dropped.
Python `set` iteration order is unspecified; sets collected from lists are
determinized to first-occurrence order (`List.dedup`-style), which fixes one
admissible execution of the CPython program.
-/

namespace Trellis

/-- A curriculum node: the engine reads only `id` and `label`
(`n["id"]`, `n.get("label", "Topic")`); all content fields are opaque
payload that the engine passes through untouched and are omitted. -/
structure Node where
  id : String
  label : String := "Topic"
deriving DecidableEq, Repr

/-- A directed edge record.  `generated` models the marker set by the
implicit generator (absent, i.e. `false`, on explicit edges), `props` the
remaining auxiliary key/value attributes of the Python dict. -/
structure Edge where
  source : String
  target : String
  relation : String
  generated : Bool := false
  props : List (String × String) := []
deriving DecidableEq, Repr

/-- The identity triple of an edge, the dedup key used by the pipeline. -/
def Edge.triple (e : Edge) : String × String × String :=
  (e.source, e.target, e.relation)

/-- The set `ALLOWED_RELATIONS` of graph_builder.py line 14. -/
def ALLOWED_RELATIONS : List String :=
  ["HAS_PART", "REQUIRES", "RELATED_TO", "HAS_EXERCISE"]

/-! ## Edge validator (`validate_edges`, graph_builder.py lines 48-68)

The Python loop raises `ValueError` on the first edge whose relation is
outside `ALLOWED_RELATIONS`; an edge whose source or target id is missing
from the node-id set is skipped (with a warning, not modelled); surviving
edges are accumulated in order.  A raised error aborts the whole call, so
the function either returns the filtered list or an error. -/

/-- One pass of the `for e in edges` loop of `validate_edges`, with the
node-id set already built. -/
def validateEdgesLoop (nodeIds : List String) : List Edge → Except String (List Edge)
  | [] => .ok []
  | e :: rest =>
    if e.relation ∉ ALLOWED_RELATIONS then
      .error ("Invalid relation type: " ++ e.relation)
    else if e.source ∉ nodeIds then
      validateEdgesLoop nodeIds rest
    else if e.target ∉ nodeIds then
      validateEdgesLoop nodeIds rest
    else
      match validateEdgesLoop nodeIds rest with
      | .error msg => .error msg
      | .ok vs => .ok (e :: vs)

/-- Model of `validate_edges(nodes, edges)`: builds `node_ids = {n["id"] for n in nodes}`
and runs the validation loop. -/
def validate_edges (nodes : List Node) (edges : List Edge) : Except String (List Edge) :=
  validateEdgesLoop (nodes.map (·.id)) edges

/-- Whether both endpoints of an edge are known node ids. -/
def endpointsPresent (nodeIds : List String) (e : Edge) : Bool :=
  e.source ∈ nodeIds && e.target ∈ nodeIds

theorem validateEdgesLoop_all_legal (nodeIds : List String) (edges : List Edge)
    (h : ∀ e ∈ edges, e.relation ∈ ALLOWED_RELATIONS) :
    validateEdgesLoop nodeIds edges = .ok (edges.filter (endpointsPresent nodeIds)) := by
  induction edges with
  | nil => rfl
  | cons e rest ih =>
    have he : e.relation ∈ ALLOWED_RELATIONS := h e (List.mem_cons_self ..)
    have hrest : ∀ e' ∈ rest, e'.relation ∈ ALLOWED_RELATIONS :=
      fun e' h' => h e' (List.mem_cons_of_mem _ h')
    by_cases hs : e.source ∈ nodeIds <;> by_cases ht : e.target ∈ nodeIds <;>
      simp [validateEdgesLoop, he, hs, ht, ih hrest, List.filter, endpointsPresent]

theorem validateEdgesLoop_error_of_illegal (nodeIds : List String) (edges : List Edge)
    (h : ∃ e ∈ edges, e.relation ∉ ALLOWED_RELATIONS) :
    ∃ msg, validateEdgesLoop nodeIds edges = .error msg := by
  induction edges with
  | nil => simp at h
  | cons e rest ih =>
    by_cases he : e.relation ∈ ALLOWED_RELATIONS
    · have hrest : ∃ e' ∈ rest, e'.relation ∉ ALLOWED_RELATIONS := by
        rcases h with ⟨e', he', hbad⟩
        rcases List.mem_cons.mp he' with rfl | hmem
        · exact absurd he hbad
        · exact ⟨e', hmem, hbad⟩
      rcases ih hrest with ⟨msg, hmsg⟩
      by_cases hs : e.source ∈ nodeIds <;> by_cases ht : e.target ∈ nodeIds <;>
        simp [validateEdgesLoop, he, hs, ht, hmsg]
    · exact ⟨"Invalid relation type: " ++ e.relation, by simp [validateEdgesLoop, he]⟩

theorem validateEdgesLoop_error_at_first_illegal (nodeIds : List String)
    (pre : List Edge) (e : Edge) (post : List Edge)
    (hpre : ∀ e' ∈ pre, e'.relation ∈ ALLOWED_RELATIONS)
    (hbad : e.relation ∉ ALLOWED_RELATIONS) :
    validateEdgesLoop nodeIds (pre ++ e :: post) =
      .error ("Invalid relation type: " ++ e.relation) := by
  induction pre with
  | nil => simp [validateEdgesLoop, hbad]
  | cons p rest ih =>
    have hp : p.relation ∈ ALLOWED_RELATIONS := hpre p (List.mem_cons_self ..)
    have hrest : ∀ e' ∈ rest, e'.relation ∈ ALLOWED_RELATIONS :=
      fun e' h' => hpre e' (List.mem_cons_of_mem _ h')
    by_cases hs : p.source ∈ nodeIds <;> by_cases ht : p.target ∈ nodeIds <;>
      simp [validateEdgesLoop, hp, hs, ht, ih hrest]

/-- Claim C2, counterexample to the strict half.  `validate_edges` takes no
mode parameter at all; on an input containing a dangling edge (target `B`
absent from the node set) it does not abort: it returns `ok` with the edge
silently dropped.  No abort-on-dangling-reference behavior exists anywhere
in the code, so there is no strict mode the caller could select. -/
theorem C2_counterexample :
    validate_edges [{ id := "A", label := "Topic" }]
      [{ source := "A", target := "B", relation := "HAS_PART" }] = .ok [] := rfl

/-- Claim C2 (amended): the edge validator has a single, hard-wired lenient
behavior.  For every node set and edge list whose relations are all legal,
it returns exactly the edges whose source and target ids are both present
in the node set, in order: every dangling edge (and only those) is absent
from the output, every other edge is retained.  There is no caller-selectable
strict mode; the claimed abort-on-dangling behavior does not exist. -/
theorem C2_lenient_filter (nodes : List Node) (edges : List Edge)
    (h : ∀ e ∈ edges, e.relation ∈ ALLOWED_RELATIONS) :
    validate_edges nodes edges =
      .ok (edges.filter (endpointsPresent (nodes.map (·.id)))) :=
  validateEdgesLoop_all_legal _ _ h

/-- Witness for C2_lenient_filter at a concrete input: two legal edges, one
dangling (target `C` unknown); the dangling one is dropped, the other kept. -/
theorem C2_lenient_filter_witness :
    validate_edges [{ id := "A" }, { id := "B" }]
      [{ source := "A", target := "B", relation := "HAS_PART" },
       { source := "A", target := "C", relation := "REQUIRES" }] =
      .ok [{ source := "A", target := "B", relation := "HAS_PART" }] := by
  have h := C2_lenient_filter [{ id := "A" }, { id := "B" }]
    [{ source := "A", target := "B", relation := "HAS_PART" },
     { source := "A", target := "C", relation := "REQUIRES" }]
    (by decide)
  simpa using h

/-- Claim C7: an edge whose relation lies outside the allowed set
{HAS_PART, HAS_EXERCISE, REQUIRES, RELATED_TO} always makes `validate_edges`
raise (return an error) rather than return any edge list; such an edge is
never silently dropped.  The validator has no mode parameter, so this holds
for the only behavior the code has. -/
theorem C7_illegal_relation_fatal (nodes : List Node) (edges : List Edge)
    (h : ∃ e ∈ edges, e.relation ∉ ALLOWED_RELATIONS) :
    ∃ msg, validate_edges nodes edges = .error msg :=
  validateEdgesLoop_error_of_illegal _ _ h

/-- Witness for C7 at a concrete input: a `"FOO"` edge aborts the run. -/
theorem C7_illegal_relation_fatal_witness :
    ∃ msg, validate_edges [{ id := "A" }]
      [{ source := "A", target := "A", relation := "FOO" }] = .error msg :=
  C7_illegal_relation_fatal _ _
    ⟨{ source := "A", target := "A", relation := "FOO" }, by decide, by decide⟩

/-- Claim C10: the relation-legality check precedes the dangling-endpoint
policy edge by edge.  If the edges before `e` all carry legal relations
(nothing else assumed of them: they may be dangling and skipped) and `e`
has an illegal relation, `validate_edges` raises the illegal-relation error
for `e` — no hypothesis on the endpoints of `e`, which may itself dangle. -/
theorem C10_relation_check_precedence (nodes : List Node)
    (pre : List Edge) (e : Edge) (post : List Edge)
    (hpre : ∀ e' ∈ pre, e'.relation ∈ ALLOWED_RELATIONS)
    (hbad : e.relation ∉ ALLOWED_RELATIONS) :
    validate_edges nodes (pre ++ e :: post) =
      .error ("Invalid relation type: " ++ e.relation) :=
  validateEdgesLoop_error_at_first_illegal _ _ _ _ hpre hbad

/-- Witness for C10 at a concrete input: a dangling edge is skipped first,
then an edge that is both dangling and of illegal relation `"FOO"` raises
the relation error. -/
theorem C10_relation_check_precedence_witness :
    validate_edges [{ id := "A" }]
      ([{ source := "A", target := "Z", relation := "HAS_PART" }] ++
        { source := "P", target := "Q", relation := "FOO" } ::
        [{ source := "A", target := "A", relation := "HAS_PART" }]) =
      .error ("Invalid relation type: " ++ "FOO") :=
  C10_relation_check_precedence [{ id := "A" }] _ _ _ (by decide) (by decide)

/-! ## Exercise-id normalization (pipeline step 1, graph_builder.py lines 253-257)

For each node labelled `Exercise` whose id does not already end in `"_EX"`,
the pipeline appends `"_EX"` to the id.  Python's `str.endswith` is modelled
as a decidable list-suffix test on the character data. -/

/-- Model of Python `s.endswith(suffix)`. -/
def pyEndswith (s sfx : String) : Bool := decide (sfx.data <:+ s.data)

/-- The per-node body of the pre-processing loop. -/
def normalizeExerciseNode (n : Node) : Node :=
  if n.label = "Exercise" ∧ ¬ pyEndswith n.id "_EX" then
    { n with id := n.id ++ "_EX" }
  else n

/-- Pipeline step 1: normalize every Exercise node id. -/
def normalize_exercise_ids (nodes : List Node) : List Node :=
  nodes.map normalizeExerciseNode

theorem pyEndswith_append (s t : String) : pyEndswith (s ++ t) t = true := by
  simp [pyEndswith, String.data_append]

theorem normalizeExerciseNode_idem (n : Node) :
    normalizeExerciseNode (normalizeExerciseNode n) = normalizeExerciseNode n := by
  unfold normalizeExerciseNode
  by_cases h : n.label = "Exercise" ∧ ¬ pyEndswith n.id "_EX"
  · rw [if_pos h, if_neg]
    rintro ⟨-, hno⟩
    exact hno (pyEndswith_append n.id "_EX")
  · rw [if_neg h, if_neg h]

/-- Claim C9: the Exercise-id normalization is idempotent — appending the
`"_EX"` suffix to Exercise-labelled nodes whose id does not already end in
`"_EX"` gives the same node list when applied twice as when applied once —
and the id of a node with any label other than `Exercise` is never
modified. -/
theorem C9_normalization_idempotent :
    (∀ nodes : List Node,
      normalize_exercise_ids (normalize_exercise_ids nodes) =
        normalize_exercise_ids nodes) ∧
    (∀ n : Node, n.label ≠ "Exercise" → (normalizeExerciseNode n).id = n.id) := by
  constructor
  · intro nodes
    simp [normalize_exercise_ids, List.map_map, Function.comp_def,
      normalizeExerciseNode_idem]
  · intro n h
    simp [normalizeExerciseNode, h]

/-- Witness for C9 at a concrete input: a double pass equals a single pass on
a mixed node list, and a `Topic` node id is untouched. -/
theorem C9_normalization_idempotent_witness :
    normalize_exercise_ids (normalize_exercise_ids
        [{ id := "A_1", label := "Exercise" }, { id := "B", label := "Topic" }]) =
      normalize_exercise_ids
        [{ id := "A_1", label := "Exercise" }, { id := "B", label := "Topic" }] ∧
    (normalizeExerciseNode { id := "B", label := "Topic" }).id = "B" :=
  ⟨C9_normalization_idempotent.1 _,
   C9_normalization_idempotent.2 { id := "B", label := "Topic" } (by decide)⟩

/-! ## Implicit hierarchy generator
(`generate_implicit_relationships`, graph_builder.py lines 73-101)

For each node whose id contains `'_'`, the parent id is the id with the last
`'_'`-delimited segment removed (`curr_id.rsplit('_', 1)[0]`); if that parent
id is a known node id, an edge parent→child is emitted, with relation
`HAS_EXERCISE` when the child's label (looked up in a dict built from the
node list, last occurrence winning) is `Exercise`, else `HAS_PART`, and
marked `generated`.  The function reads the node list and returns a fresh
edge list; it cannot mutate the nodes. -/

/-- The id set of a node list (`{n["id"] for n in nodes}`). -/
def idsOf (nodes : List Node) : List String := nodes.map (·.id)

/-- Model of `{n["id"]: n.get("label", "Topic")}` followed by `.get(i)`:
the label of the last node carrying id `i`, defaulting to `"Topic"`. -/
def nodeLabelLookup (nodes : List Node) (i : String) : String :=
  match nodes.reverse.find? (fun n => n.id == i) with
  | some n => n.label
  | none => "Topic"

/-- Model of `if "_" in curr_id: curr_id.rsplit('_', 1)[0]`: `none` when the
id contains no underscore, otherwise the prefix before the last underscore. -/
def rsplitParent (s : String) : Option String :=
  match s.data.reverse.dropWhile (fun c => c != '_') with
  | [] => none
  | _ :: rest => some (String.mk rest.reverse)

/-- Model of `generate_implicit_relationships(nodes)`: derive containment edges from
the id structure. -/
def generate_implicit_relationships (nodes : List Node) : List Edge :=
  nodes.filterMap (fun node =>
    match rsplitParent node.id with
    | none => none
    | some parentId =>
      if parentId ∈ idsOf nodes then
        some { source := parentId, target := node.id,
               relation := if nodeLabelLookup nodes node.id = "Exercise"
                           then "HAS_EXERCISE" else "HAS_PART",
               generated := true }
      else none)

theorem nodeLabelLookup_eq_label (nodes : List Node) (n : Node)
    (hmem : n ∈ nodes) (hnodup : (nodes.map (·.id)).Nodup) :
    nodeLabelLookup nodes n.id = n.label := by
  have hex : ∃ m, nodes.reverse.find? (fun x => x.id == n.id) = some m := by
    rw [← Option.isSome_iff_exists, List.find?_isSome]
    exact ⟨n, List.mem_reverse.mpr hmem, by simp⟩
  rcases hex with ⟨m, hm⟩
  have hmmem : m ∈ nodes := List.mem_reverse.mp (List.mem_of_find?_eq_some hm)
  have hmid : m.id = n.id := by
    have := List.find?_some hm
    simpa using this
  have : m = n := List.inj_on_of_nodup_map hnodup hmmem hmem hmid
  simp [nodeLabelLookup, hm, this]

/-- Claim C6: with pairwise-distinct node ids (the data model's contract),
`generate_implicit_relationships` emits an edge exactly for each node whose
id with the last underscore-delimited segment removed is the id of some node
in the set; the edge runs parent→child, its relation is `HAS_EXERCISE` when
the child's label is `Exercise` and `HAS_PART` otherwise, and it is marked
`generated`.  A node with no discoverable parent (no underscore, or parent id
unknown) contributes no edge, and the generator does not touch the nodes. -/
theorem C6_implicit_generator_exact (nodes : List Node)
    (hnodup : (nodes.map (·.id)).Nodup) (e : Edge) :
    e ∈ generate_implicit_relationships nodes ↔
      ∃ n ∈ nodes, ∃ p, rsplitParent n.id = some p ∧ p ∈ idsOf nodes ∧
        e = { source := p, target := n.id,
              relation := if n.label = "Exercise" then "HAS_EXERCISE" else "HAS_PART",
              generated := true, props := [] } := by
  unfold generate_implicit_relationships
  rw [List.mem_filterMap]
  constructor
  · rintro ⟨n, hn, hf⟩
    rcases hp : rsplitParent n.id with _ | p
    · rw [hp] at hf; simp at hf
    · rw [hp] at hf
      by_cases hin : p ∈ idsOf nodes
      · refine ⟨n, hn, p, hp, hin, ?_⟩
        rw [nodeLabelLookup_eq_label nodes n hn hnodup] at hf
        simp [hin] at hf
        exact hf.symm
      · simp [hin] at hf
  · rintro ⟨n, hn, p, hp, hin, rfl⟩
    refine ⟨n, hn, ?_⟩
    rw [hp]
    simp [hin, nodeLabelLookup_eq_label nodes n hn hnodup]

/-- Witness for C6 at a concrete input: `A_1` gets parent `A` with
`HAS_PART`; the Exercise node `A_1_EX` gets parent `A_1` with
`HAS_EXERCISE`; the root `A` is the target of no generated edge. -/
theorem C6_implicit_generator_exact_witness :
    ({ source := "A", target := "A_1", relation := "HAS_PART",
       generated := true, props := [] } : Edge) ∈
      generate_implicit_relationships
        [{ id := "A" }, { id := "A_1" }, { id := "A_1_EX", label := "Exercise" }] ∧
    ({ source := "A_1", target := "A_1_EX", relation := "HAS_EXERCISE",
       generated := true, props := [] } : Edge) ∈
      generate_implicit_relationships
        [{ id := "A" }, { id := "A_1" }, { id := "A_1_EX", label := "Exercise" }] :=
  ⟨(C6_implicit_generator_exact _ (by decide) _).mpr
      ⟨{ id := "A_1" }, by decide, "A", by decide, by decide, by decide⟩,
   (C6_implicit_generator_exact _ (by decide) _).mpr
      ⟨{ id := "A_1_EX", label := "Exercise" }, by decide, "A_1", by decide, by decide,
        by decide⟩⟩

/-! ## Merging explicit and implicit edges (pipeline step 3, lines 263-270)

The pipeline walks `explicit_edges + implicit_edges` in order, keeping an
edge only when its `(source, target, relation)` triple has not been seen
yet.  Because explicit edges come first, an explicit edge always beats an
implicit edge with the same triple. -/

/-- The dedup loop with its `seen` accumulator. -/
def dedupEdgesGo : List Edge → List (String × String × String) → List Edge
  | [], _ => []
  | e :: rest, seen =>
    if e.triple ∈ seen then dedupEdgesGo rest seen
    else e :: dedupEdgesGo rest (e.triple :: seen)

/-- Pipeline step 3: dedup by identity triple, first occurrence wins. -/
def combine_edges (edges : List Edge) : List Edge := dedupEdgesGo edges []

theorem dedupEdgesGo_not_seen {es : List Edge} {seen : List (String × String × String)}
    {e : Edge} (h : e ∈ dedupEdgesGo es seen) : e.triple ∉ seen := by
  induction es generalizing seen with
  | nil => simp [dedupEdgesGo] at h
  | cons x rest ih =>
    by_cases hx : x.triple ∈ seen
    · rw [dedupEdgesGo, if_pos hx] at h
      exact ih h
    · rw [dedupEdgesGo, if_neg hx] at h
      rcases List.mem_cons.mp h with rfl | h
      · exact hx
      · have := ih h
        exact fun hc => this (List.mem_cons_of_mem _ hc)

theorem dedupEdgesGo_triples_nodup (es : List Edge)
    (seen : List (String × String × String)) :
    ((dedupEdgesGo es seen).map Edge.triple).Nodup := by
  induction es generalizing seen with
  | nil => simp [dedupEdgesGo]
  | cons x rest ih =>
    by_cases hx : x.triple ∈ seen
    · rw [dedupEdgesGo, if_pos hx]; exact ih seen
    · rw [dedupEdgesGo, if_neg hx]
      rw [List.map_cons, List.nodup_cons]
      refine ⟨?_, ih _⟩
      intro hmem
      rcases List.mem_map.mp hmem with ⟨e, he, het⟩
      have := dedupEdgesGo_not_seen he
      exact this (het ▸ List.mem_cons_self ..)

theorem dedupEdgesGo_triple_mem (es : List Edge)
    (seen : List (String × String × String)) (t : String × String × String) :
    t ∈ (dedupEdgesGo es seen).map Edge.triple ↔
      t ∈ es.map Edge.triple ∧ t ∉ seen := by
  induction es generalizing seen with
  | nil => simp [dedupEdgesGo]
  | cons x rest ih =>
    by_cases hx : x.triple ∈ seen
    · rw [dedupEdgesGo, if_pos hx, ih]
      simp only [List.map_cons, List.mem_cons]
      constructor
      · rintro ⟨hm, hs⟩; exact ⟨Or.inr hm, hs⟩
      · rintro ⟨hm | hm, hs⟩
        · exact absurd (hm ▸ hx) hs
        · exact ⟨hm, hs⟩
    · rw [dedupEdgesGo, if_neg hx]
      simp only [List.map_cons, List.mem_cons, ih]
      constructor
      · rintro (rfl | ⟨hm, hs⟩)
        · exact ⟨Or.inl rfl, hx⟩
        · exact ⟨Or.inr hm, fun hc => hs (Or.inr hc)⟩
      · rintro ⟨rfl | hm, hs⟩
        · exact Or.inl rfl
        · by_cases hxt : t = x.triple
          · exact Or.inl hxt
          · exact Or.inr ⟨hm, by simp [hxt, hs]⟩

theorem dedupEdgesGo_first_occurrence {es : List Edge}
    {seen : List (String × String × String)} {e : Edge}
    (h : e ∈ dedupEdgesGo es seen) :
    ∃ pre post, es = pre ++ e :: post ∧ e.triple ∉ pre.map Edge.triple := by
  induction es generalizing seen with
  | nil => simp [dedupEdgesGo] at h
  | cons x rest ih =>
    by_cases hx : x.triple ∈ seen
    · rw [dedupEdgesGo, if_pos hx] at h
      rcases ih h with ⟨pre, post, rfl, hpre⟩
      refine ⟨x :: pre, post, rfl, ?_⟩
      have hne : e.triple ≠ x.triple := fun hc => (dedupEdgesGo_not_seen h) (hc ▸ hx)
      simp only [List.map_cons, List.mem_cons]
      rintro (hc | hc)
      · exact hne hc
      · exact hpre hc
    · rw [dedupEdgesGo, if_neg hx] at h
      rcases List.mem_cons.mp h with rfl | h
      · exact ⟨[], rest, rfl, by simp⟩
      · rcases ih h with ⟨pre, post, rfl, hpre⟩
        refine ⟨x :: pre, post, rfl, ?_⟩
        have hns := dedupEdgesGo_not_seen h
        have hne : e.triple ≠ x.triple := fun hc => hns (hc ▸ List.mem_cons_self ..)
        simp only [List.map_cons, List.mem_cons]
        rintro (hc | hc)
        · exact hne hc
        · exact hpre hc

/-- Claim C8: merging the explicit edge list with the generated implicit edge
list keeps each `(source, target, relation)` triple at most once, loses no
triple, and whenever a surviving edge's triple occurs among the explicit
edges, the surviving edge is one of the explicit edges themselves (so the
explicit edge's properties win over an implicit duplicate, which comes
later in the concatenation). -/
theorem C8_merge_dedup (explicitEdges implicitEdges : List Edge) :
    ((combine_edges (explicitEdges ++ implicitEdges)).map Edge.triple).Nodup ∧
    (∀ t, t ∈ (combine_edges (explicitEdges ++ implicitEdges)).map Edge.triple ↔
      t ∈ (explicitEdges ++ implicitEdges).map Edge.triple) ∧
    (∀ e ∈ combine_edges (explicitEdges ++ implicitEdges),
      e.triple ∈ explicitEdges.map Edge.triple → e ∈ explicitEdges) := by
  refine ⟨dedupEdgesGo_triples_nodup _ _, ?_, ?_⟩
  · intro t
    rw [combine_edges, dedupEdgesGo_triple_mem]
    simp
  · intro e he htriple
    rcases dedupEdgesGo_first_occurrence he with ⟨pre, post, heq, hpre⟩
    rcases List.append_eq_append_iff.mp heq.symm with ⟨a', ha, hb⟩ | ⟨c', hc, hd⟩
    · rcases a' with _ | ⟨a, atl⟩
      · exfalso
        apply hpre
        rw [List.append_nil] at ha
        exact ha ▸ htriple
      · have : a = e := by
          have : a :: (atl ++ implicitEdges) = e :: post := by
            simpa using hb.symm
          exact (List.cons.injEq .. ▸ this).1
        rw [ha, this]
        exact List.mem_append_right _ (List.mem_cons_self ..)
    · exfalso
      apply hpre
      rw [hc, List.map_append]
      exact List.mem_append_left _ htriple

/-- Witness for C8 at a concrete input: an explicit `A→B HAS_PART` edge with
a weight property and the implicit generated edge with the same triple merge
to the explicit edge alone. -/
theorem C8_merge_dedup_witness :
    (({ source := "A", target := "B", relation := "HAS_PART",
        props := [("weight", "1")] } : Edge) ∈
      combine_edges
        ([{ source := "A", target := "B", relation := "HAS_PART",
            props := [("weight", "1")] }] ++
         [{ source := "A", target := "B", relation := "HAS_PART",
            generated := true }])) ∧
    ({ source := "A", target := "B", relation := "HAS_PART",
       props := [("weight", "1")] } : Edge) ∈
      [({ source := "A", target := "B", relation := "HAS_PART",
          props := [("weight", "1")] } : Edge)] :=
  ⟨by decide,
   (C8_merge_dedup
      [{ source := "A", target := "B", relation := "HAS_PART",
         props := [("weight", "1")] }]
      [{ source := "A", target := "B", relation := "HAS_PART",
         generated := true }]).2.2 _ (by decide) (by decide)⟩

/-! ## Cycle detector (`validate_no_cycles`, graph_builder.py lines 19-46)

The Python code builds an adjacency dict over REQUIRES edges only, then runs
a recursive depth-first search with shared `visited` and a path set `stack`
over every node appearing as a REQUIRES endpoint, raising
`ValueError(f"Cycle detected involving '{n}'")` at the first *root* `n`
whose search hits a node already on the stack.  The error is modelled as
`Except.error n` carrying the implicated node id.  Recursion is modelled
with fuel (one unit per `dfs` entry); `|nodes| + 1` units are proven
sufficient below.  Python's `set` iteration order over the endpoint union
is unspecified; it is determinized to `List.dedup` of sources followed by
targets in edge order — one admissible execution of the program. -/

/-- Adjacency of the REQUIRES-only subgraph: `graph[u]` after the build loop. -/
def requiresAdj (edges : List Edge) (u : String) : List String :=
  (edges.filter (fun e => e.relation == "REQUIRES" && e.source == u)).map (·.target)

/-- The nodes of the REQUIRES subgraph (`all_nodes`), determinized. -/
def requiresNodes (edges : List Edge) : List String :=
  (((edges.filter (fun e => e.relation == "REQUIRES")).map (·.source)) ++
    ((edges.filter (fun e => e.relation == "REQUIRES")).map (·.target))).dedup

/-- The REQUIRES step relation of an edge list: one prerequisite arc. -/
def requiresRel (edges : List Edge) (u v : String) : Prop :=
  ∃ e ∈ edges, e.relation = "REQUIRES" ∧ e.source = u ∧ e.target = v

/-- The arc relation induced by an adjacency function. -/
def adjRel (adj : String → List String) (u v : String) : Prop := v ∈ adj u

/-- Sequential short-circuiting traversal of a neighbor list, threading the
`visited` set: the `for nei in graph.get(node, [])` loop of `dfs`. -/
def dfsList (f : String → List String → Bool × List String) :
    List String → List String → Bool × List String
  | [], visited => (false, visited)
  | m :: rest, visited =>
    match f m visited with
    | (true, v) => (true, v)
    | (false, v) => dfsList f rest v

/-- The recursive `dfs(node)` with explicit `visited` and `stack` sets.
A `true` result is a detected cycle.  Fuel only decreases on entering an
unvisited node; with fuel larger than the number of unvisited nodes the
`0` case (returning `false`) is unreachable. -/
def dfsNode (adj : String → List String) :
    Nat → String → List String → List String → Bool × List String
  | 0, _, visited, _ => (false, visited)
  | fuel + 1, node, visited, stack =>
    if node ∈ stack then (true, visited)
    else if node ∈ visited then (false, visited)
    else dfsList (fun m v => dfsNode adj fuel m v (node :: stack))
      (adj node) (node :: visited)

/-- The `for n in all_nodes: if dfs(n): raise` loop. -/
def validateNoCyclesGo (adj : String → List String) (fuel : Nat) :
    List String → List String → Except String Unit
  | [], _ => .ok ()
  | n :: rest, visited =>
    match dfsNode adj fuel n visited [] with
    | (true, _) => .error n
    | (false, v) => validateNoCyclesGo adj fuel rest v

/-- Model of `validate_no_cycles(edges)`: detect cycles only in REQUIRES edges; the
error carries the id of the DFS root implicated by the raise. -/
def validate_no_cycles (edges : List Edge) : Except String Unit :=
  validateNoCyclesGo (requiresAdj edges) ((requiresNodes edges).length + 1)
    (requiresNodes edges) []

theorem requiresAdj_mem {edges : List Edge} {u v : String} :
    v ∈ requiresAdj edges u ↔ requiresRel edges u v := by
  simp only [requiresAdj, List.mem_map, List.mem_filter, requiresRel]
  constructor
  · rintro ⟨e, ⟨he, hprop⟩, rfl⟩
    rcases Bool.and_eq_true .. ▸ hprop with ⟨h1, h2⟩
    exact ⟨e, he, by simpa using h1, by simpa using h2, rfl⟩
  · rintro ⟨e, he, h1, h2, h3⟩
    exact ⟨e, ⟨he, by simp [h1, h2]⟩, h3⟩

theorem requiresRel_mem_nodes {edges : List Edge} {u v : String}
    (h : requiresRel edges u v) :
    u ∈ requiresNodes edges ∧ v ∈ requiresNodes edges := by
  rcases h with ⟨e, he, h1, h2, h3⟩
  constructor
  · apply List.mem_dedup.mpr
    apply List.mem_append_left
    exact List.mem_map.mpr ⟨e, List.mem_filter.mpr ⟨he, by simp [h1]⟩, h2⟩
  · apply List.mem_dedup.mpr
    apply List.mem_append_right
    exact List.mem_map.mpr ⟨e, List.mem_filter.mpr ⟨he, by simp [h1]⟩, h3⟩

theorem dfsList_true_exists {f : String → List String → Bool × List String}
    {l : List String} {v : List String} (h : (dfsList f l v).1 = true) :
    ∃ m ∈ l, ∃ v', (f m v').1 = true := by
  induction l generalizing v with
  | nil => simp [dfsList] at h
  | cons m rest ih =>
    rw [dfsList] at h
    rcases hf : f m v with ⟨b, v₁⟩
    rw [hf] at h
    cases b with
    | true => exact ⟨m, List.mem_cons_self .., v, by rw [hf]⟩
    | false =>
      rcases ih h with ⟨m', hm', v', hv'⟩
      exact ⟨m', List.mem_cons_of_mem _ hm', v', hv'⟩

theorem chain'_mem_reflTransGen {adj : String → List String} :
    ∀ {stack : List String}, List.Chain' (fun a b => a ∈ adj b) stack →
    ∀ {s top : String}, stack.head? = some top → s ∈ stack →
    Relation.ReflTransGen (adjRel adj) s top := by
  intro stack
  induction stack with
  | nil => intro _ s top hh; simp at hh
  | cons x rest ih =>
    intro hchain s top hh hs
    have hx : x = top := by simpa using hh
    subst hx
    rcases List.mem_cons.mp hs with rfl | hs
    · exact Relation.ReflTransGen.refl
    · rcases rest with _ | ⟨y, rest'⟩
      · simp at hs
      · have hchain' : List.Chain' (fun a b => a ∈ adj b) (y :: rest') :=
          (List.chain'_cons.mp hchain).2
        have hxy : x ∈ adj y := (List.chain'_cons.mp hchain).1
        exact Relation.ReflTransGen.tail (ih hchain' (by simp) hs) hxy

/-- Soundness of a `true` DFS result: under the stack invariants, some node
reachable from `root` lies on a REQUIRES cycle (the cycle closes through
the stack node that was re-encountered). -/
theorem dfsNode_true_cycle {adj : String → List String} (root : String) :
    ∀ (fuel : Nat) {node : String} {visited stack : List String},
    List.Chain' (fun a b => a ∈ adj b) stack →
    (stack = [] ∨ ∃ h t, stack = h :: t ∧ node ∈ adj h) →
    (∀ s ∈ stack, Relation.ReflTransGen (adjRel adj) root s) →
    Relation.ReflTransGen (adjRel adj) root node →
    (dfsNode adj fuel node visited stack).1 = true →
    ∃ w, Relation.ReflTransGen (adjRel adj) root w ∧
      Relation.TransGen (adjRel adj) w w := by
  intro fuel
  induction fuel with
  | zero => intro node visited stack _ _ _ _ h; simp [dfsNode] at h
  | succ fuel ih =>
    intro node visited stack hchain hlink hroots hrootnode htrue
    rw [dfsNode] at htrue
    by_cases hstack : node ∈ stack
    · rcases hlink with rfl | ⟨hd, tl, rfl, hadj⟩
      · simp at hstack
      · have hpath : Relation.ReflTransGen (adjRel adj) node hd :=
          chain'_mem_reflTransGen hchain (by simp) hstack
        exact ⟨node, hrootnode, Relation.TransGen.tail' hpath hadj⟩
    · rw [if_neg hstack] at htrue
      by_cases hvis : node ∈ visited
      · simp [hvis] at htrue
      · rw [if_neg hvis] at htrue
        rcases dfsList_true_exists htrue with ⟨m, hm, v', hv'⟩
        have hchain' : List.Chain' (fun a b => a ∈ adj b) (node :: stack) := by
          rcases hlink with rfl | ⟨hd, tl, rfl, hadj⟩
          · simp
          · exact List.chain'_cons.mpr ⟨hadj, hchain⟩
        refine ih hchain' (Or.inr ⟨node, stack, rfl, hm⟩) ?_ ?_ hv'
        · intro s hs
          rcases List.mem_cons.mp hs with rfl | hs
          · exact hrootnode
          · exact hroots s hs
        · exact Relation.ReflTransGen.tail hrootnode hm

/-- No cycle is reachable from `v`. -/
def NoCycleFrom (R : String → String → Prop) (v : String) : Prop :=
  ∀ w, Relation.ReflTransGen R v w → ¬ Relation.TransGen R w w

/-- The black-node invariant of the shared `visited` set: every visited node
that is not on the current DFS stack is fully explored and cycle-free. -/
def BInv (R : String → String → Prop) (visited stack : List String) : Prop :=
  ∀ v ∈ visited, v ∉ stack → NoCycleFrom R v

theorem countP_lt_of_witness {l : List String} {p q : String → Bool}
    (h : ∀ x ∈ l, p x → q x) {a : String} (ha : a ∈ l) (hqa : q a)
    (hpa : ¬ p a) : l.countP p < l.countP q := by
  induction l with
  | nil => simp at ha
  | cons x rest ih =>
    rcases List.mem_cons.mp ha with rfl | ha
    · have hmono : rest.countP p ≤ rest.countP q :=
        List.countP_mono_left (fun y hy => h y (List.mem_cons_of_mem _ hy))
      have hpa' : p a = false := by
        cases hp : p a
        · rfl
        · exact absurd hp hpa
      rw [List.countP_cons, List.countP_cons, hqa, hpa']
      simp
      omega
    · have hx : p x → q x := h x (List.mem_cons_self ..)
      have := ih (fun y hy => h y (List.mem_cons_of_mem _ hy)) ha
      rw [List.countP_cons, List.countP_cons]
      by_cases hpx : p x
      · simp [hpx, hx hpx]; omega
      · simp only [hpx, if_false]
        by_cases hqx : q x <;> simp [hqx] <;> omega

/-- Completeness invariant of a `false` DFS result: starting from a visited
set whose off-stack nodes are cycle-free, with enough fuel, the search
returns a grown visited set with the same property, now containing `node`;
in particular no cycle is reachable from `node`. -/
theorem dfsNode_false_inv {adj : String → List String} {S : List String}
    (hSclosed : ∀ u v : String, v ∈ adj u → v ∈ S) :
    ∀ (fuel : Nat) {node : String} {visited stack res : List String},
    node ∈ S → visited ⊆ S →
    S.countP (fun x => decide (x ∉ visited)) + 1 ≤ fuel →
    BInv (adjRel adj) visited stack →
    dfsNode adj fuel node visited stack = (false, res) →
    BInv (adjRel adj) res stack ∧ visited ⊆ res ∧ node ∈ res ∧ res ⊆ S := by
  intro fuel
  induction fuel with
  | zero => intro node visited stack res _ _ hfuel _ _; omega
  | succ fuel ih =>
    intro node visited stack res hnS hvS hfuel hbinv heq
    rw [dfsNode] at heq
    by_cases hstack : node ∈ stack
    · rw [if_pos hstack] at heq
      exact absurd heq (by simp)
    · rw [if_neg hstack] at heq
      by_cases hvis : node ∈ visited
      · rw [if_pos hvis] at heq
        have hres : visited = res := by
          have := congrArg Prod.snd heq
          simpa using this
        subst hres
        exact ⟨hbinv, fun _ h => h, hvis, hvS⟩
      · rw [if_neg hvis] at heq
        have key : ∀ (l : List String), (∀ m ∈ l, m ∈ adj node) →
            ∀ (v res' : List String), v ⊆ S → node :: visited ⊆ v →
            BInv (adjRel adj) v (node :: stack) →
            dfsList (fun m v' => dfsNode adj fuel m v' (node :: stack)) l v =
              (false, res') →
            BInv (adjRel adj) res' (node :: stack) ∧ v ⊆ res' ∧ res' ⊆ S ∧
              ∀ m ∈ l, m ∈ res' ∧ m ∉ node :: stack := by
          intro l
          induction l with
          | nil =>
            intro _ v res' hv hnv hb hq
            rw [dfsList] at hq
            have : v = res' := by
              have := congrArg Prod.snd hq
              simpa using this
            subst this
            exact ⟨hb, fun _ h => h, hv, by simp⟩
          | cons m rest ihl =>
            intro hlS v res' hvS' hnv hb hq
            rw [dfsList] at hq
            rcases hm : dfsNode adj fuel m v (node :: stack) with ⟨b, v₁⟩
            rw [hm] at hq
            cases b with
            | true => exact absurd hq (by simp)
            | false =>
              have hfuel' : S.countP (fun x => decide (x ∉ v)) + 1 ≤ fuel := by
                have hlt : S.countP (fun x => decide (x ∉ v)) <
                    S.countP (fun x => decide (x ∉ visited)) := by
                  refine countP_lt_of_witness ?_ hnS ?_ ?_
                  · intro x _ hx
                    simp only [decide_eq_true_eq] at hx ⊢
                    exact fun hc => hx (hnv (List.mem_cons_of_mem _ hc))
                  · simpa using hvis
                  · simp only [decide_eq_true_eq, not_not]
                    exact hnv (List.mem_cons_self ..)
                omega
              have hmS : m ∈ S := hSclosed node m (hlS m (List.mem_cons_self ..))
              have hpost := ih hmS hvS' hfuel' hb hm
              have hmns : m ∉ node :: stack := by
                intro hc
                rcases fuel with _ | fuel'
                · omega
                · rw [dfsNode, if_pos hc] at hm
                  exact absurd hm (by simp)
              have hrec := ihl (fun m' hm' => hlS m' (List.mem_cons_of_mem _ hm'))
                v₁ res' hpost.2.2.2 (fun x hx => hpost.2.1 (hnv hx)) hpost.1 hq
              refine ⟨hrec.1, fun x hx => hrec.2.1 (hpost.2.1 hx), hrec.2.2.1, ?_⟩
              intro m' hm'
              rcases List.mem_cons.mp hm' with rfl | hm'
              · exact ⟨hrec.2.1 hpost.2.2.1, hmns⟩
              · exact hrec.2.2.2 m' hm'
        have hkey := key (adj node) (fun m hm => hm) (node :: visited) res
          (fun x hx => by
            rcases List.mem_cons.mp hx with rfl | hx
            · exact hnS
            · exact hvS hx)
          (fun _ h => h)
          (by
            intro v' hv' hns
            rcases List.mem_cons.mp hv' with rfl | hv'
            · exact absurd (List.mem_cons_self ..) hns
            · exact hbinv v' hv' (fun hc => hns (List.mem_cons_of_mem _ hc)))
          heq
        have hneigh : ∀ m ∈ adj node, NoCycleFrom (adjRel adj) m := by
          intro m hm
          rcases hkey.2.2.2 m hm with ⟨hmres, hmns⟩
          exact hkey.1 m hmres hmns
        have hnode : NoCycleFrom (adjRel adj) node := by
          intro w hw hcyc
          rcases hw.cases_head with heqw | ⟨c, hc, hcw⟩
          · subst heqw
            rcases Relation.TransGen.head'_iff.mp hcyc with ⟨c, hc, hcw⟩
            exact hneigh c hc node hcw hcyc
          · exact hneigh c hc w hcw hcyc
        refine ⟨?_, fun x hx => hkey.2.1 (List.mem_cons_of_mem _ hx),
          hkey.2.1 (List.mem_cons_self ..), hkey.2.2.1⟩
        intro v' hv' hns
        by_cases hvn : v' = node
        · exact hvn ▸ hnode
        · exact hkey.1 v' hv' (by simp [hvn, hns])

theorem validateNoCyclesGo_error {adj : String → List String} {fuel : Nat} :
    ∀ {roots visited : List String} {n : String},
    validateNoCyclesGo adj fuel roots visited = .error n →
    ∃ v, (dfsNode adj fuel n v []).1 = true := by
  intro roots
  induction roots with
  | nil =>
    intro visited n h
    rw [validateNoCyclesGo] at h
    exact absurd h (by simp)
  | cons r rest ih =>
    intro visited n h
    rw [validateNoCyclesGo] at h
    rcases hd : dfsNode adj fuel r visited [] with ⟨b, v⟩
    rw [hd] at h
    cases b with
    | false => exact ih h
    | true =>
      have hrn : r = n := by injection h
      exact ⟨visited, by rw [← hrn, hd]⟩

theorem validateNoCyclesGo_ok {adj : String → List String} {S : List String}
    (hSclosed : ∀ u v : String, v ∈ adj u → v ∈ S) :
    ∀ (roots visited : List String),
    (∀ r ∈ roots, r ∈ S) → visited ⊆ S →
    BInv (adjRel adj) visited [] →
    validateNoCyclesGo adj (S.length + 1) roots visited = .ok () →
    ∃ res, BInv (adjRel adj) res [] ∧ (∀ r ∈ roots, r ∈ res) ∧ visited ⊆ res := by
  intro roots
  induction roots with
  | nil =>
    intro visited _ _ hb _
    exact ⟨visited, hb, by simp, fun _ h => h⟩
  | cons r rest ih =>
    intro visited hrS hvS hb hok
    rw [validateNoCyclesGo] at hok
    rcases hd : dfsNode adj (S.length + 1) r visited [] with ⟨b, v⟩
    rw [hd] at hok
    cases b with
    | true => exact absurd hok (by simp)
    | false =>
      have hfuel : S.countP (fun x => decide (x ∉ visited)) + 1 ≤ S.length + 1 := by
        have := List.countP_le_length (fun x => decide (x ∉ visited)) (l := S)
        omega
      have hpost := dfsNode_false_inv hSclosed (S.length + 1)
        (hrS r (List.mem_cons_self ..)) hvS hfuel hb hd
      rcases ih v (fun r' h => hrS r' (List.mem_cons_of_mem _ h)) hpost.2.2.2
        hpost.1 hok with ⟨res, hbres, hrest, hvres⟩
      refine ⟨res, hbres, ?_, fun x hx => hvres (hpost.2.1 hx)⟩
      intro r' hr'
      rcases List.mem_cons.mp hr' with rfl | hr'
      · exact hvres hpost.2.2.1
      · exact hrest r' hr'

/-- Claim C3 (amended): `validate_no_cycles` raises exactly when the
REQUIRES-only subgraph contains a directed cycle, and when it is acyclic
the check passes (it inspects the edges and returns unit, leaving them
untouched).  However, the node id carried by the raised error is the DFS
root whose exploration ran into the cycle: a node from which a node on a
REQUIRES-cycle is reachable, not necessarily a node lying on the cycle
itself (the original claim fails, see the counterexample). -/
theorem C3_cycle_detector_amended (edges : List Edge) :
    ((∃ n, validate_no_cycles edges = .error n) ↔
      ∃ v, Relation.TransGen (requiresRel edges) v v) ∧
    (∀ n, validate_no_cycles edges = .error n →
      ∃ w, Relation.ReflTransGen (requiresRel edges) n w ∧
        Relation.TransGen (requiresRel edges) w w) ∧
    ((¬ ∃ v, Relation.TransGen (requiresRel edges) v v) →
      validate_no_cycles edges = .ok ()) := by
  have hrel : requiresRel edges = adjRel (requiresAdj edges) :=
    funext fun u => funext fun v => propext requiresAdj_mem.symm
  have herr : ∀ n, validate_no_cycles edges = .error n →
      ∃ w, Relation.ReflTransGen (requiresRel edges) n w ∧
        Relation.TransGen (requiresRel edges) w w := by
    intro n hn
    rw [validate_no_cycles] at hn
    rcases validateNoCyclesGo_error hn with ⟨v, htrue⟩
    rw [hrel]
    exact dfsNode_true_cycle n _ (by simp) (Or.inl rfl) (by simp)
      Relation.ReflTransGen.refl htrue
  have hcomplete : (∃ v, Relation.TransGen (requiresRel edges) v v) →
      ∃ n, validate_no_cycles edges = .error n := by
    rintro ⟨v, hv⟩
    rcases hres : validate_no_cycles edges with n | u
    · exact ⟨n, rfl⟩
    · exfalso
      rw [validate_no_cycles] at hres
      have hSclosed : ∀ u w : String, w ∈ requiresAdj edges u →
          w ∈ requiresNodes edges :=
        fun u w hw => (requiresRel_mem_nodes (requiresAdj_mem.mp hw)).2
      have hok : validateNoCyclesGo (requiresAdj edges)
          ((requiresNodes edges).length + 1) (requiresNodes edges) [] = .ok () := by
        rw [hres]
      rcases validateNoCyclesGo_ok hSclosed (requiresNodes edges) []
        (fun r h => h) (by simp) (by intro x hx; simp at hx) hok with
        ⟨res, hbres, hroots, -⟩
      have hvS : v ∈ requiresNodes edges := by
        rcases Relation.TransGen.head'_iff.mp hv with ⟨c, hc, -⟩
        exact (requiresRel_mem_nodes hc).1
      have hvres : v ∈ res := hroots v hvS
      have hnc : NoCycleFrom (adjRel (requiresAdj edges)) v :=
        hbres v hvres (by simp)
      rw [hrel] at hv
      exact hnc v Relation.ReflTransGen.refl hv
  refine ⟨⟨?_, hcomplete⟩, herr, ?_⟩
  · rintro ⟨n, hn⟩
    rcases herr n hn with ⟨w, -, hcyc⟩
    exact ⟨w, hcyc⟩
  · intro hnc
    rcases hres : validate_no_cycles edges with n | u
    · exfalso
      rcases herr n hres with ⟨w, -, hcyc⟩
      exact hnc ⟨w, hcyc⟩
    · cases u
      rfl

/-- The concrete REQUIRES edge set A→B, B→C, C→B: the cycle is B↔C, and A
merely reaches it. -/
def cycleWitnessEdges : List Edge :=
  [{ source := "A", target := "B", relation := "REQUIRES" },
   { source := "B", target := "C", relation := "REQUIRES" },
   { source := "C", target := "B", relation := "REQUIRES" }]

/-- Claim C3, counterexample: on A→B, B→C, C→B the detector raises with
node `A` (the DFS root it was exploring), but `A` lies on no REQUIRES
cycle — only `B` and `C` do.  So the id carried by the error is not a node
lying on a cycle, refuting the original claim's naming guarantee. -/
theorem C3_counterexample :
    validate_no_cycles cycleWitnessEdges = .error "A" ∧
    ¬ Relation.TransGen (requiresRel cycleWitnessEdges) "A" "A" := by
  constructor
  · rfl
  · intro h
    rcases Relation.TransGen.tail'_iff.mp h with ⟨b, -, hb⟩
    rcases hb with ⟨e, he, -, -, htgt⟩
    fin_cases he <;> simp_all

/-- Witness for C3_cycle_detector_amended: on the cyclic example the raised
id `A` reaches a cycle node, and on a single acyclic REQUIRES edge the
check passes. -/
theorem C3_cycle_detector_amended_witness :
    (∃ w, Relation.ReflTransGen (requiresRel cycleWitnessEdges) "A" w ∧
      Relation.TransGen (requiresRel cycleWitnessEdges) w w) ∧
    validate_no_cycles [{ source := "A", target := "B", relation := "REQUIRES" }] =
      .ok () := by
  constructor
  · exact (C3_cycle_detector_amended cycleWitnessEdges).2.1 "A" rfl
  · refine (C3_cycle_detector_amended _).2.2 ?_
    rintro ⟨v, hv⟩
    rcases Relation.TransGen.tail'_iff.mp hv with ⟨b, hrt, hb⟩
    rcases hb with ⟨e, he, -, hsrc, htgt⟩
    rcases List.mem_singleton.mp he with rfl
    rcases hrt.cases_head with heq | ⟨c, hc, -⟩
    · rw [← hsrc, ← htgt] at heq
      exact absurd heq (by decide)
    · rcases hc with ⟨e', he', -, hsrc', -⟩
      rcases List.mem_singleton.mp he' with rfl
      rw [← htgt] at hsrc'
      exact absurd hsrc' (by decide)

/-! ## Transitive reducer (`prune_redundant_hierarchy`, graph_builder.py
lines 106-167)

The Python code splits the edges into hierarchy ({HAS_PART, HAS_EXERCISE})
and other edges, builds an adjacency map (of target *sets*) from all
hierarchy edges, and drops each hierarchy edge `(u, v)` for which
`has_indirect_path(u, v)` holds: a breadth-first search from `u` that
refuses to take the direct hop `u→v` as its first step (`curr == start and
n == end`) and reports success on any other arc into `v`.  Other edges are
returned first, then the surviving hierarchy edges.  Target-set iteration
order is determinized to dedup'd edge order; BFS recursion is modelled with
fuel, with `|nodes| + 1` proven sufficient. -/

/-- Whether an edge belongs to the containment hierarchy. -/
def isHierarchy (e : Edge) : Bool :=
  e.relation == "HAS_PART" || e.relation == "HAS_EXERCISE"

/-- The hierarchy adjacency map `adj[u]` (a Python set, determinized). -/
def hierAdj (edges : List Edge) (u : String) : List String :=
  (((edges.filter (fun e => isHierarchy e && e.source == u)).map (·.target))).dedup

/-- The nodes of the hierarchy subgraph, for the BFS fuel bound. -/
def hierNodes (edges : List Edge) : List String :=
  (((edges.filter (fun e => isHierarchy e)).map (·.source)) ++
    ((edges.filter (fun e => isHierarchy e)).map (·.target))).dedup

/-- One containment arc. -/
def hierRel (edges : List Edge) (u v : String) : Prop :=
  ∃ e ∈ edges, (e.relation = "HAS_PART" ∨ e.relation = "HAS_EXERCISE") ∧
    e.source = u ∧ e.target = v

/-- The `for n in neighbors` body of the BFS: skip the direct first hop,
report success on any other arc into the target, enqueue unvisited nodes.
`none` models `return True`. -/
def bfsProcess (start tgt curr : String) :
    List String → List String → List String →
    Option (List String × List String)
  | [], queue, visited => some (queue, visited)
  | n :: rest, queue, visited =>
    if curr = start ∧ n = tgt then bfsProcess start tgt curr rest queue visited
    else if n = tgt then none
    else if n ∈ visited then bfsProcess start tgt curr rest queue visited
    else bfsProcess start tgt curr rest (queue ++ [n]) (n :: visited)

/-- The `while queue` loop of `has_indirect_path`, with fuel. -/
def bfsLoop (adj : String → List String) (start tgt : String) :
    Nat → List String → List String → Bool
  | 0, _, _ => false
  | _ + 1, [], _ => false
  | fuel + 1, curr :: qs, visited =>
    match bfsProcess start tgt curr (adj curr) qs visited with
    | none => true
    | some (q', v') => bfsLoop adj start tgt fuel q' v'

/-- Model of `has_indirect_path(start, end)`: BFS over the hierarchy adjacency that
must not follow the direct edge `start→end` as its first hop. -/
def has_indirect_path (edges : List Edge) (start tgt : String) : Bool :=
  bfsLoop (hierAdj edges) start tgt ((hierNodes edges).length + 1)
    [start] [start]

/-- Model of `prune_redundant_hierarchy(edges)`: drop each hierarchy edge with an
indirect path between its endpoints; other relations pass through. -/
def prune_redundant_hierarchy (edges : List Edge) : List Edge :=
  (edges.filter (fun e => !(isHierarchy e))) ++
    ((edges.filter (fun e => isHierarchy e)).filter
      (fun e => !(has_indirect_path edges e.source e.target)))

/-- The searched relation of the skip-first-hop BFS from `start` to `tgt`:
a containment arc other than the direct arc `start→tgt`. -/
def hierRelMinus (edges : List Edge) (start tgt : String) (u v : String) : Prop :=
  hierRel edges u v ∧ ¬(u = start ∧ v = tgt)

theorem isHierarchy_iff {e : Edge} :
    isHierarchy e = true ↔ e.relation = "HAS_PART" ∨ e.relation = "HAS_EXERCISE" := by
  simp [isHierarchy]

theorem hierAdj_mem {edges : List Edge} {u v : String} :
    v ∈ hierAdj edges u ↔ hierRel edges u v := by
  simp only [hierAdj, List.mem_dedup, List.mem_map, List.mem_filter, hierRel]
  constructor
  · rintro ⟨e, ⟨he, hprop⟩, rfl⟩
    rcases Bool.and_eq_true .. ▸ hprop with ⟨h1, h2⟩
    exact ⟨e, he, isHierarchy_iff.mp h1, by simpa using h2, rfl⟩
  · rintro ⟨e, he, h1, h2, h3⟩
    exact ⟨e, ⟨he, by simp [isHierarchy_iff.mpr h1, h2]⟩, h3⟩

theorem hierRel_mem_nodes {edges : List Edge} {u v : String}
    (h : hierRel edges u v) : u ∈ hierNodes edges ∧ v ∈ hierNodes edges := by
  rcases h with ⟨e, he, h1, h2, h3⟩
  constructor
  · apply List.mem_dedup.mpr
    apply List.mem_append_left
    exact List.mem_map.mpr ⟨e, List.mem_filter.mpr ⟨he, isHierarchy_iff.mpr h1⟩, h2⟩
  · apply List.mem_dedup.mpr
    apply List.mem_append_right
    exact List.mem_map.mpr ⟨e, List.mem_filter.mpr ⟨he, isHierarchy_iff.mpr h1⟩, h3⟩

/-- The arc relation explored by the skip-first-hop BFS over an adjacency
function. -/
def bfsRel (adj : String → List String) (start tgt : String) (u v : String) : Prop :=
  v ∈ adj u ∧ ¬(u = start ∧ v = tgt)

theorem bfsProcess_none {start tgt curr : String} :
    ∀ {l queue visited : List String},
    bfsProcess start tgt curr l queue visited = none →
    ∃ n ∈ l, n = tgt ∧ ¬(curr = start ∧ n = tgt) := by
  intro l
  induction l with
  | nil => intro queue visited h; rw [bfsProcess] at h; exact absurd h (by simp)
  | cons n rest ih =>
    intro queue visited h
    rw [bfsProcess] at h
    by_cases h1 : curr = start ∧ n = tgt
    · rw [if_pos h1] at h
      rcases ih h with ⟨m, hm, hmt, hms⟩
      exact ⟨m, List.mem_cons_of_mem _ hm, hmt, hms⟩
    · rw [if_neg h1] at h
      by_cases h2 : n = tgt
      · exact ⟨n, List.mem_cons_self .., h2, h1⟩
      · rw [if_neg h2] at h
        by_cases h3 : n ∈ visited
        · rw [if_pos h3] at h
          rcases ih h with ⟨m, hm, hmt, hms⟩
          exact ⟨m, List.mem_cons_of_mem _ hm, hmt, hms⟩
        · rw [if_neg h3] at h
          rcases ih h with ⟨m, hm, hmt, hms⟩
          exact ⟨m, List.mem_cons_of_mem _ hm, hmt, hms⟩

/-- Structural facts about one neighbor-processing pass that ends without
finding the target: what the new queue and visited sets contain, the
processed-neighbor closure, preservation of queue distinctness, and the
fuel measure bound. -/
theorem bfsProcess_some {start tgt curr : String} :
    ∀ {l queue visited q' v' : List String},
    bfsProcess start tgt curr l queue visited = some (q', v') →
    queue ⊆ visited → queue.Nodup →
    (visited ⊆ v' ∧ queue ⊆ q' ∧ q' ⊆ v' ∧ q'.Nodup) ∧
    (∀ x ∈ q', x ∈ queue ∨ (x ∈ l ∧ x ∉ visited ∧ x ≠ tgt)) ∧
    (∀ x ∈ v', x ∈ visited ∨ x ∈ q') ∧
    (∀ n ∈ l, (curr = start ∧ n = tgt) ∨ (n ≠ tgt ∧ n ∈ v')) ∧
    (∀ S : List String, (∀ n ∈ l, n ∈ S) →
      q'.length + S.countP (fun x => decide (x ∉ v')) ≤
        queue.length + S.countP (fun x => decide (x ∉ visited))) := by
  intro l
  induction l with
  | nil =>
    intro queue visited q' v' h hqv hnd
    rw [bfsProcess] at h
    have h1 : queue = q' := by
      have := congrArg (fun o => o.map Prod.fst) h
      simpa using this
    have h2 : visited = v' := by
      have := congrArg (fun o => o.map Prod.snd) h
      simpa using this
    subst h1; subst h2
    exact ⟨⟨fun _ h => h, fun _ h => h, hqv, hnd⟩,
      fun x hx => Or.inl hx, fun x hx => Or.inl hx, by simp,
      fun S _ => le_rfl⟩
  | cons n rest ih =>
    intro queue visited q' v' h hqv hnd
    rw [bfsProcess] at h
    by_cases h1 : curr = start ∧ n = tgt
    · rw [if_pos h1] at h
      rcases ih h hqv hnd with ⟨hstruct, hqsrc, hvsrc, hnb, hlen⟩
      refine ⟨hstruct, ?_, ?_, ?_, ?_⟩
      · intro x hx
        rcases hqsrc x hx with hx | ⟨hx1, hx2, hx3⟩
        · exact Or.inl hx
        · exact Or.inr ⟨List.mem_cons_of_mem _ hx1, hx2, hx3⟩
      · exact hvsrc
      · intro m hm
        rcases List.mem_cons.mp hm with rfl | hm
        · exact Or.inl h1
        · exact hnb m hm
      · intro S hS
        exact hlen S (fun m hm => hS m (List.mem_cons_of_mem _ hm))
    · rw [if_neg h1] at h
      by_cases h2 : n = tgt
      · rw [if_pos h2] at h
        exact absurd h (by simp)
      · rw [if_neg h2] at h
        by_cases h3 : n ∈ visited
        · rw [if_pos h3] at h
          rcases ih h hqv hnd with ⟨hstruct, hqsrc, hvsrc, hnb, hlen⟩
          refine ⟨hstruct, ?_, ?_, ?_, ?_⟩
          · intro x hx
            rcases hqsrc x hx with hx | ⟨hx1, hx2, hx3⟩
            · exact Or.inl hx
            · exact Or.inr ⟨List.mem_cons_of_mem _ hx1, hx2, hx3⟩
          · exact hvsrc
          · intro m hm
            rcases List.mem_cons.mp hm with rfl | hm
            · exact Or.inr ⟨h2, hstruct.1 h3⟩
            · exact hnb m hm
          · intro S hS
            exact hlen S (fun m hm => hS m (List.mem_cons_of_mem _ hm))
        · rw [if_neg h3] at h
          have hqv' : queue ++ [n] ⊆ n :: visited := by
            intro x hx
            rcases List.mem_append.mp hx with hx | hx
            · exact List.mem_cons_of_mem _ (hqv hx)
            · rcases List.mem_singleton.mp hx with rfl
              exact List.mem_cons_self ..
          have hnd' : (queue ++ [n]).Nodup := by
            rw [List.nodup_append]
            refine ⟨hnd, List.nodup_singleton n, ?_⟩
            intro a ha hb
            rcases List.mem_singleton.mp hb with rfl
            exact h3 (hqv ha)
          rcases ih h hqv' hnd' with ⟨hstruct, hqsrc, hvsrc, hnb, hlen⟩
          have hvv' : visited ⊆ v' := fun x hx =>
            hstruct.1 (List.mem_cons_of_mem _ hx)
          refine ⟨⟨hvv', ?_, hstruct.2.2.1, hstruct.2.2.2⟩, ?_, ?_, ?_, ?_⟩
          · intro x hx
            exact hstruct.2.1 (List.mem_append_left _ hx)
          · intro x hx
            rcases hqsrc x hx with hx | ⟨hx1, hx2, hx3⟩
            · rcases List.mem_append.mp hx with hx | hx
              · exact Or.inl hx
              · rcases List.mem_singleton.mp hx with rfl
                exact Or.inr ⟨List.mem_cons_self .., h3, h2⟩
            · refine Or.inr ⟨List.mem_cons_of_mem _ hx1, ?_, hx3⟩
              exact fun hc => hx2 (List.mem_cons_of_mem _ hc)
          · intro x hx
            rcases hvsrc x hx with hx | hx
            · rcases List.mem_cons.mp hx with rfl | hx
              · exact Or.inr (hstruct.2.1 (List.mem_append_right _ (by simp)))
              · exact Or.inl hx
            · exact Or.inr hx
          · intro m hm
            rcases List.mem_cons.mp hm with rfl | hm
            · exact Or.inr ⟨h2, hstruct.1 (List.mem_cons_self ..)⟩
            · exact hnb m hm
          · intro S hS
            have hrec := hlen S (fun m hm => hS m (List.mem_cons_of_mem _ hm))
            have hstep : S.countP (fun x => decide (x ∉ n :: visited)) + 1 ≤
                S.countP (fun x => decide (x ∉ visited)) := by
              have hlt : S.countP (fun x => decide (x ∉ n :: visited)) <
                  S.countP (fun x => decide (x ∉ visited)) := by
                refine countP_lt_of_witness ?_ (hS n (List.mem_cons_self ..)) ?_ ?_
                · intro x _ hx
                  simp only [decide_eq_true_eq] at hx ⊢
                  exact fun hc => hx (List.mem_cons_of_mem _ hc)
                · simpa using h3
                · simp
              omega
            have hql : (queue ++ [n]).length = queue.length + 1 := by simp
            omega

/-- Soundness of a `true` BFS result: the target is reached from `start`
by arcs that never use the forbidden direct hop. -/
theorem bfsLoop_true_reach {adj : String → List String} {start tgt : String} :
    ∀ (fuel : Nat) {q v : List String},
    (∀ x ∈ q, Relation.ReflTransGen (bfsRel adj start tgt) start x) →
    q ⊆ v → q.Nodup →
    bfsLoop adj start tgt fuel q v = true →
    Relation.TransGen (bfsRel adj start tgt) start tgt := by
  intro fuel
  induction fuel with
  | zero => intro q v _ _ _ h; rw [bfsLoop] at h; exact absurd h (by simp)
  | succ fuel ih =>
    intro q v hreach hqv hnd h
    rcases q with _ | ⟨curr, qs⟩
    · rw [bfsLoop] at h; exact absurd h (by simp)
    · rw [bfsLoop] at h
      rcases hp : bfsProcess start tgt curr (adj curr) qs v with _ | ⟨q', v'⟩
      · rcases bfsProcess_none hp with ⟨m, hm, hmt, hns⟩
        have hcurr : Relation.ReflTransGen (bfsRel adj start tgt) start curr :=
          hreach curr (List.mem_cons_self ..)
        refine Relation.TransGen.tail' hcurr ⟨hmt ▸ hm, ?_⟩
        exact fun hc => hns ⟨hc.1, hmt⟩
      · rw [hp] at h
        have hqs : qs ⊆ v := fun x hx => hqv (List.mem_cons_of_mem _ hx)
        have hnds : qs.Nodup := (List.nodup_cons.mp hnd).2
        rcases bfsProcess_some hp hqs hnds with ⟨hstruct, hqsrc, -, -, -⟩
        refine ih ?_ hstruct.2.2.1 hstruct.2.2.2 h
        intro x hx
        rcases hqsrc x hx with hx | ⟨hx1, hx2, hx3⟩
        · exact hreach x (List.mem_cons_of_mem _ hx)
        · refine Relation.ReflTransGen.tail (hreach curr (List.mem_cons_self ..))
            ⟨hx1, ?_⟩
          exact fun hc => hx3 hc.2

/-- A visited set closed under all arcs (except the forbidden hop out of
`start`) admits no arc path from any of its members to the target. -/
theorem closed_safe {adj : String → List String} {start tgt : String}
    {v : List String}
    (hclosed : ∀ x ∈ v, ∀ n ∈ adj x, (x = start ∧ n = tgt) ∨ (n ≠ tgt ∧ n ∈ v)) :
    ∀ x ∈ v, ∀ w, Relation.ReflTransGen (bfsRel adj start tgt) x w →
      ¬ bfsRel adj start tgt w tgt := by
  intro x hx w hxw
  have hwv : w ∈ v := by
    induction hxw with
    | refl => exact hx
    | tail hab hbc ihw =>
      rcases hclosed _ ihw _ hbc.1 with ⟨h1, hc⟩ | ⟨-, hc⟩
      · exact absurd ⟨h1, hc⟩ hbc.2
      · exact hc
  intro hwt
  rcases hclosed w hwv tgt hwt.1 with ⟨h1, -⟩ | ⟨h1, -⟩
  · exact hwt.2 ⟨h1, rfl⟩
  · exact h1 rfl

/-- Completeness invariant of a `false` BFS result: with the
processed-neighbor closure and enough fuel, no node of the visited set has
any arc path to the target (other than through the forbidden hop). -/
theorem bfsLoop_false_safe {adj : String → List String} {start tgt : String}
    {S : List String} (hSclosed : ∀ u : String, ∀ n ∈ adj u, n ∈ S) :
    ∀ (fuel : Nat) {q v : List String},
    q ⊆ v → q.Nodup →
    (∀ x ∈ v, x ∉ q → ∀ n ∈ adj x, (x = start ∧ n = tgt) ∨ (n ≠ tgt ∧ n ∈ v)) →
    q.length + S.countP (fun x => decide (x ∉ v)) ≤ fuel →
    bfsLoop adj start tgt fuel q v = false →
    ∀ x ∈ v, ∀ w, Relation.ReflTransGen (bfsRel adj start tgt) x w →
      ¬ bfsRel adj start tgt w tgt := by
  intro fuel
  induction fuel with
  | zero =>
    intro q v hqv hnd hclosed hfuel _
    have hq : q = [] := by
      rcases q with _ | ⟨c, qs⟩
      · rfl
      · simp at hfuel
    subst hq
    exact closed_safe (fun x hx => hclosed x hx (by simp))
  | succ fuel ih =>
    intro q v hqv hnd hclosed hfuel hres
    rcases q with _ | ⟨curr, qs⟩
    · exact closed_safe (fun x hx => hclosed x hx (by simp))
    · rw [bfsLoop] at hres
      rcases hp : bfsProcess start tgt curr (adj curr) qs v with _ | ⟨q', v'⟩
      · rw [hp] at hres; exact absurd hres (by simp)
      · rw [hp] at hres
        have hqs : qs ⊆ v := fun x hx => hqv (List.mem_cons_of_mem _ hx)
        have hnds : qs.Nodup := (List.nodup_cons.mp hnd).2
        rcases bfsProcess_some hp hqs hnds with
          ⟨hstruct, hqsrc, hvq, hnb, hlen⟩
        have hclosed' : ∀ x ∈ v', x ∉ q' → ∀ n ∈ adj x,
            (x = start ∧ n = tgt) ∨ (n ≠ tgt ∧ n ∈ v') := by
          intro x hxv' hxq' n hn
          by_cases hxc : x = curr
          · subst hxc
            exact hnb n hn
          · rcases hvq x hxv' with hxv | hxq
            · have hxq : x ∉ curr :: qs := by
                intro hc
                rcases List.mem_cons.mp hc with rfl | hc
                · exact hxc rfl
                · exact hxq' (hstruct.2.1 hc)
              rcases hclosed x hxv hxq n hn with hout | ⟨hnt, hnv⟩
              · exact Or.inl hout
              · exact Or.inr ⟨hnt, hstruct.1 hnv⟩
            · exact absurd hxq hxq'
        have hfuel' : q'.length + S.countP (fun x => decide (x ∉ v')) ≤ fuel := by
          have := hlen S (fun n hn => hSclosed curr n hn)
          have hql : (curr :: qs).length = qs.length + 1 := by simp
          omega
        have hsafe := ih hstruct.2.2.1 hstruct.2.2.2 hclosed' hfuel' hres
        intro x hx w hxw hwt
        exact hsafe x (hstruct.1 hx) w hxw hwt

theorem bfsRel_eq_hierRelMinus (edges : List Edge) (start tgt : String) :
    bfsRel (hierAdj edges) start tgt = hierRelMinus edges start tgt := by
  funext u v
  exact propext (and_congr_left' hierAdj_mem)

/-- Exact semantics of `has_indirect_path`: it succeeds precisely when a
directed walk of containment arcs from `start` reaches `tgt` without ever
using the direct arc `start→tgt`.  Since a walk from `start` to `tgt` that
uses the arc `start→tgt` anywhere must revisit `start`, this coincides with
the existence of a directed path from `start` to `tgt` other than the
single direct edge. -/
theorem has_indirect_path_iff (edges : List Edge) (start tgt : String) :
    has_indirect_path edges start tgt = true ↔
      Relation.TransGen (hierRelMinus edges start tgt) start tgt := by
  rw [← bfsRel_eq_hierRelMinus]
  constructor
  · intro h
    rw [has_indirect_path] at h
    refine bfsLoop_true_reach _ ?_ (fun x hx => hx) (List.nodup_singleton _) h
    intro x hx
    rcases List.mem_singleton.mp hx with rfl
    exact Relation.ReflTransGen.refl
  · intro h
    by_contra hne
    have hf : has_indirect_path edges start tgt = false := by
      cases hb : has_indirect_path edges start tgt
      · rfl
      · exact absurd hb hne
    rw [has_indirect_path] at hf
    have hSclosed : ∀ u : String, ∀ n ∈ hierAdj edges u, n ∈ hierNodes edges :=
      fun u n hn => (hierRel_mem_nodes (hierAdj_mem.mp hn)).2
    have hfuel : ([start] : List String).length +
        (hierNodes edges).countP (fun x => decide (x ∉ ([start] : List String))) ≤
        (hierNodes edges).length + 1 := by
      have := List.countP_le_length
        (fun x => decide (x ∉ ([start] : List String))) (l := hierNodes edges)
      simp only [List.length_singleton]
      omega
    have hsafe := bfsLoop_false_safe hSclosed ((hierNodes edges).length + 1)
      (fun x hx => hx) (List.nodup_singleton _)
      (fun x hx hnx => absurd hx hnx) hfuel hf
    rcases Relation.TransGen.tail'_iff.mp h with ⟨w, hsw, hwt⟩
    exact hsafe start (List.mem_singleton_self _) w hsw hwt

theorem prune_mem (edges : List Edge) (e : Edge) :
    e ∈ prune_redundant_hierarchy edges ↔
      e ∈ edges ∧ (isHierarchy e = true →
        has_indirect_path edges e.source e.target = false) := by
  simp only [prune_redundant_hierarchy, List.mem_append, List.mem_filter,
    Bool.not_eq_true']
  constructor
  · rintro (⟨h1, h2⟩ | ⟨⟨h1, h2⟩, h3⟩)
    · exact ⟨h1, fun hh => absurd hh (by simp [h2])⟩
    · exact ⟨h1, fun _ => h3⟩
  · rintro ⟨h1, h2⟩
    by_cases hh : isHierarchy e = true
    · exact Or.inr ⟨⟨h1, hh⟩, h2 hh⟩
    · exact Or.inl ⟨h1, by simpa using hh⟩

theorem hierRel_prune_iff (edges : List Edge) (u v : String) :
    hierRel (prune_redundant_hierarchy edges) u v ↔
      hierRel edges u v ∧ has_indirect_path edges u v = false := by
  constructor
  · rintro ⟨e, he, hrel, hsrc, htgt⟩
    rcases (prune_mem edges e).mp he with ⟨h1, h2⟩
    have hh : isHierarchy e = true := isHierarchy_iff.mpr hrel
    refine ⟨⟨e, h1, hrel, hsrc, htgt⟩, ?_⟩
    rw [← hsrc, ← htgt]
    exact h2 hh
  · rintro ⟨⟨e, he, hrel, hsrc, htgt⟩, hpath⟩
    refine ⟨e, (prune_mem edges e).mpr ⟨he, fun _ => ?_⟩, hrel, hsrc, htgt⟩
    rw [hsrc, htgt]
    exact hpath

/-- Claim C5: `prune_redundant_hierarchy` passes every non-containment edge
through unchanged (same edges, same order); on the containment edges A→B,
B→C, A→C it removes exactly the shortcut A→C; and it retains every
containment edge `(u, v)` for which no alternate directed path from `u` to
`v` exists (formalized: no walk of containment arcs from `u` to `v` that
avoids the direct arc, which is equivalent to the absence of any directed
path other than the single edge). -/
theorem C5_reducer_scope (edges : List Edge) :
    ((prune_redundant_hierarchy edges).filter (fun e => !(isHierarchy e)) =
      edges.filter (fun e => !(isHierarchy e))) ∧
    (prune_redundant_hierarchy
        [{ source := "A", target := "B", relation := "HAS_PART" },
         { source := "B", target := "C", relation := "HAS_PART" },
         { source := "A", target := "C", relation := "HAS_PART" }] =
      [{ source := "A", target := "B", relation := "HAS_PART" },
       { source := "B", target := "C", relation := "HAS_PART" }]) ∧
    (∀ e ∈ edges, isHierarchy e = true →
      ¬ Relation.TransGen (hierRelMinus edges e.source e.target) e.source e.target →
      e ∈ prune_redundant_hierarchy edges) := by
  refine ⟨?_, by rfl, ?_⟩
  · rw [prune_redundant_hierarchy, List.filter_append]
    have h1 : (edges.filter (fun e => !(isHierarchy e))).filter
        (fun e => !(isHierarchy e)) = edges.filter (fun e => !(isHierarchy e)) := by
      rw [List.filter_filter]
      congr 1
      funext e
      cases isHierarchy e <;> rfl
    have h2 : (((edges.filter (fun e => isHierarchy e)).filter
        (fun e => !(has_indirect_path edges e.source e.target))).filter
          (fun e => !(isHierarchy e))) = [] := by
      rw [List.filter_eq_nil_iff]
      intro e he
      have hh : isHierarchy e = true :=
        (List.mem_filter.mp (List.mem_filter.mp he).1).2
      simp [hh]
    rw [h1, h2, List.append_nil]
  · intro e he hh hnalt
    refine (prune_mem edges e).mpr ⟨he, fun _ => ?_⟩
    cases hb : has_indirect_path edges e.source e.target
    · rfl
    · exact absurd ((has_indirect_path_iff ..).mp hb) hnalt

/-- Witness for C5 at a concrete input: the claim's disconnected pair — a
lone containment edge A→C with no alternate path is retained. -/
theorem C5_reducer_scope_witness :
    ({ source := "A", target := "C", relation := "HAS_PART" } : Edge) ∈
      prune_redundant_hierarchy
        [{ source := "A", target := "C", relation := "HAS_PART" }] := by
  refine (C5_reducer_scope _).2.2 _ (by decide) (by decide) ?_
  intro h
  rcases Relation.TransGen.head'_iff.mp h with ⟨c, ⟨⟨e, he, -, hsrc, htgt⟩, hne⟩, -⟩
  rcases List.mem_singleton.mp he with rfl
  exact hne ⟨hsrc.symm ▸ rfl, by rw [← htgt]⟩

/-- The complete directed triangle on A, B, C: every containment arc has a
two-hop alternate route, so the reducer deletes all six edges at once and
destroys reachability. -/
def fullTriangle : List Edge :=
  [{ source := "A", target := "B", relation := "HAS_PART" },
   { source := "B", target := "A", relation := "HAS_PART" },
   { source := "B", target := "C", relation := "HAS_PART" },
   { source := "C", target := "B", relation := "HAS_PART" },
   { source := "A", target := "C", relation := "HAS_PART" },
   { source := "C", target := "A", relation := "HAS_PART" }]

/-- Claim C4, counterexample to reachability preservation: on the complete
directed triangle every hierarchy edge is removed (each has an alternate
two-hop path in the *input* graph), so `B` is reachable from `A` in the
input containment subgraph but not in the output: the surviving edge set
does not have the same reachability relation as the input. -/
theorem C4_counterexample :
    Relation.ReflTransGen (hierRel fullTriangle) "A" "B" ∧
    ¬ Relation.ReflTransGen (hierRel (prune_redundant_hierarchy fullTriangle))
        "A" "B" := by
  constructor
  · exact Relation.ReflTransGen.single
      ⟨{ source := "A", target := "B", relation := "HAS_PART" },
        by simp [fullTriangle], Or.inl rfl, rfl, rfl⟩
  · intro h
    have hempty : prune_redundant_hierarchy fullTriangle = [] := by rfl
    rw [hempty] at h
    rcases h.cases_head with heq | ⟨c, ⟨e, he, -⟩, -⟩
    · exact absurd heq (by decide)
    · simp at he

/-! ### Reachability preservation on acyclic containment graphs

The reducer tests every hierarchy edge against the *original* adjacency
while deleting edges, so on cyclic inputs it can delete a set of edges that
jointly carried reachability (see `C4_counterexample`).  On an acyclic
containment subgraph this cannot happen: every deleted edge `(u,v)` has a
replacement path whose arcs span strictly smaller reachability intervals,
so by induction on the interval size the replacement survives. -/

/-- Decidable reachability in the containment subgraph: equality, a direct
arc, or an indirect path found by the (verified) BFS. -/
instance (edges : List Edge) (u v : String) : Decidable (hierRel edges u v) := by
  unfold hierRel
  infer_instance

def reachBool (edges : List Edge) (u w : String) : Bool :=
  decide (u = w) || decide (hierRel edges u w) || has_indirect_path edges u w

theorem reflTransGen_decompose_arc {R : String → String → Prop} (u w : String) :
    ∀ {a b : String}, Relation.ReflTransGen R a b →
    Relation.ReflTransGen (fun x y => R x y ∧ ¬(x = u ∧ y = w)) a b ∨
      (R u w ∧
        Relation.ReflTransGen (fun x y => R x y ∧ ¬(x = u ∧ y = w)) a u) := by
  intro a b h
  induction h using Relation.ReflTransGen.head_induction_on with
  | refl => exact Or.inl .refl
  | @head a' c' hac hcb ih =>
    by_cases harc : a' = u ∧ c' = w
    · refine Or.inr ⟨?_, ?_⟩
      · rw [← harc.1, ← harc.2]; exact hac
      · rw [harc.1]
    · rcases ih with ih | ⟨hRuw, ih⟩
      · exact Or.inl (Relation.ReflTransGen.head ⟨hac, harc⟩ ih)
      · exact Or.inr ⟨hRuw, Relation.ReflTransGen.head ⟨hac, harc⟩ ih⟩

/-- A transitive step decomposes into the direct arc or a path that avoids
the direct arc entirely. -/
theorem transGen_iff_arc_or_minus {R : String → String → Prop} {u w : String} :
    Relation.TransGen R u w ↔
      R u w ∨ Relation.TransGen (fun x y => R x y ∧ ¬(x = u ∧ y = w)) u w := by
  constructor
  · intro h
    rcases Relation.TransGen.head'_iff.mp h with ⟨c, hc, hcw⟩
    by_cases harc : c = w
    · exact Or.inl (harc ▸ hc)
    · have harc' : ¬(u = u ∧ c = w) := fun hx => harc hx.2
      rcases reflTransGen_decompose_arc u w hcw with hcw' | ⟨hRuw, -⟩
      · exact Or.inr (Relation.TransGen.head' ⟨hc, harc'⟩ hcw')
      · exact Or.inl hRuw
  · rintro (h | h)
    · exact Relation.TransGen.single h
    · exact Relation.TransGen.mono (fun x y hxy => hxy.1) h

theorem reachBool_iff (edges : List Edge) (u w : String) :
    reachBool edges u w = true ↔ Relation.ReflTransGen (hierRel edges) u w := by
  rw [reachBool]
  simp only [Bool.or_eq_true, decide_eq_true_eq]
  rw [has_indirect_path_iff]
  constructor
  · rintro ((rfl | h) | h)
    · exact .refl
    · exact Relation.ReflTransGen.single h
    · refine (Relation.TransGen.mono (fun x y hxy => ?_) h).to_reflTransGen
      exact hxy.1
  · intro h
    rcases Relation.reflTransGen_iff_eq_or_transGen.mp h with rfl | h
    · exact Or.inl (Or.inl rfl)
    · rcases transGen_iff_arc_or_minus.mp h with h | h
      · exact Or.inl (Or.inr h)
      · refine Or.inr (Relation.TransGen.mono (fun x y hxy => ?_) h)
        exact ⟨hxy.1, hxy.2⟩

/-- The size of the reachability interval between `a` and `b`, the measure
for the reachability-preservation induction. -/
def reachInterval (edges : List Edge) (a b : String) : Nat :=
  (hierNodes edges).countP
    (fun w => reachBool edges a w && reachBool edges w b)

theorem reach_of_reachBool {edges : List Edge} {u w : String}
    (h : reachBool edges u w = true) :
    Relation.ReflTransGen (hierRel edges) u w := (reachBool_iff ..).mp h

theorem reachBool_of_reach {edges : List Edge} {u w : String}
    (h : Relation.ReflTransGen (hierRel edges) u w) :
    reachBool edges u w = true := (reachBool_iff ..).mpr h

/-- Interval strict decrease for the first arc of a replacement path. -/
theorem interval_lt_first {edges : List Edge} {a b x : String}
    (hA : ∀ z, ¬ Relation.TransGen (hierRel edges) z z)
    (hab : hierRel edges a b) (hxne : x ≠ b)
    (hxb : Relation.ReflTransGen (hierRel edges) x b) :
    reachInterval edges a x < reachInterval edges a b := by
  refine countP_lt_of_witness ?_ (hierRel_mem_nodes hab).2 ?_ ?_
  · intro w _ hw
    rcases Bool.and_eq_true .. ▸ hw with ⟨h1, h2⟩
    rw [Bool.and_eq_true]
    exact ⟨h1, reachBool_of_reach ((reach_of_reachBool h2).trans hxb)⟩
  · rw [Bool.and_eq_true]
    exact ⟨reachBool_of_reach (Relation.ReflTransGen.single hab),
      reachBool_of_reach .refl⟩
  · rw [Bool.and_eq_true]
    rintro ⟨-, h2⟩
    have hbx := reach_of_reachBool h2
    have hxb' : Relation.TransGen (hierRel edges) x b := by
      rcases Relation.reflTransGen_iff_eq_or_transGen.mp hxb with heq | ht
      · exact absurd heq.symm hxne
      · exact ht
    exact hA x (Relation.TransGen.trans_left hxb' hbx)

/-- Interval strict decrease for a later arc of a replacement path. -/
theorem interval_lt_mid {edges : List Edge} {a b y c : String}
    (hA : ∀ z, ¬ Relation.TransGen (hierRel edges) z z)
    (hab : hierRel edges a b)
    (hay : Relation.TransGen (hierRel edges) a y)
    (hcb : Relation.ReflTransGen (hierRel edges) c b) :
    reachInterval edges y c < reachInterval edges a b := by
  refine countP_lt_of_witness ?_ (hierRel_mem_nodes hab).1 ?_ ?_
  · intro w _ hw
    rcases Bool.and_eq_true .. ▸ hw with ⟨h1, h2⟩
    rw [Bool.and_eq_true]
    refine ⟨reachBool_of_reach (hay.to_reflTransGen.trans (reach_of_reachBool h1)),
      reachBool_of_reach ((reach_of_reachBool h2).trans hcb)⟩
  · rw [Bool.and_eq_true]
    exact ⟨reachBool_of_reach .refl,
      reachBool_of_reach (Relation.ReflTransGen.single hab)⟩
  · rw [Bool.and_eq_true]
    rintro ⟨h1, -⟩
    exact hA a (Relation.TransGen.trans_left hay (reach_of_reachBool h1))

/-- A rank function strictly increasing along arcs rules out cycles. -/
theorem acyclic_of_rank {R : String → String → Prop} (f : String → Nat)
    (hf : ∀ a b, R a b → f a < f b) : ∀ z, ¬ Relation.TransGen R z z := by
  intro z hz
  have hmono : ∀ a b, Relation.TransGen R a b → f a < f b := by
    intro a b h
    induction h with
    | single h => exact hf _ _ h
    | tail _ hbc ih => exact lt_trans ih (hf _ _ hbc)
  exact lt_irrefl _ (hmono z z hz)

/-- Claim C4 (amended): after reduction no surviving containment edge
`(u,v)` admits a directed path of length at least two between its endpoints
using only surviving containment edges (stated as: no walk of surviving
containment arcs from `u` to `v` avoiding the direct arc, which such a path
would yield); and *when the input containment subgraph is acyclic* the
surviving edge set has the same reachability relation as the input
containment subgraph.  On cyclic containment inputs reachability
preservation fails (see the counterexample), which forces the acyclicity
qualification. -/
theorem C4_reducer_amended (edges : List Edge) :
    (∀ e ∈ prune_redundant_hierarchy edges, isHierarchy e = true →
      ¬ Relation.TransGen
          (hierRelMinus (prune_redundant_hierarchy edges) e.source e.target)
          e.source e.target) ∧
    ((∀ z, ¬ Relation.TransGen (hierRel edges) z z) →
      ∀ u v, Relation.ReflTransGen (hierRel edges) u v ↔
        Relation.ReflTransGen (hierRel (prune_redundant_hierarchy edges)) u v) := by
  constructor
  · intro e he hh htg
    rcases (prune_mem edges e).mp he with ⟨-, hpath⟩
    have hfalse := hpath hh
    have htg' : Relation.TransGen (hierRelMinus edges e.source e.target)
        e.source e.target := by
      refine Relation.TransGen.mono ?_ htg
      intro x y hxy
      exact ⟨((hierRel_prune_iff ..).mp hxy.1).1, hxy.2⟩
    rw [(has_indirect_path_iff ..).mpr htg'] at hfalse
    exact absurd hfalse (by simp)
  · intro hA u v
    have main : ∀ n a b, reachInterval edges a b < n → hierRel edges a b →
        Relation.TransGen (hierRel (prune_redundant_hierarchy edges)) a b := by
      intro n
      induction n with
      | zero => intro a b hlt _; exact absurd hlt (Nat.not_lt_zero _)
      | succ n ihn =>
        intro a b hlt hab
        cases hpath : has_indirect_path edges a b with
        | false =>
          exact Relation.TransGen.single ((hierRel_prune_iff ..).mpr ⟨hab, hpath⟩)
        | true =>
          have htg := (has_indirect_path_iff ..).mp hpath
          rcases Relation.TransGen.head'_iff.mp htg with ⟨x, hax, hxb⟩
          have hxne : x ≠ b := fun hc => hax.2 ⟨rfl, hc⟩
          have hxb' : Relation.ReflTransGen (hierRel edges) x b :=
            Relation.ReflTransGen.mono (fun p q hpq => hpq.1) hxb
          have hfirst := interval_lt_first hA hab hxne hxb'
          have hKax := ihn a x (by omega) hax.1
          have hwalk : ∀ y, Relation.ReflTransGen (hierRel edges) y b →
              Relation.TransGen (hierRel edges) a y →
              Relation.ReflTransGen
                (hierRel (prune_redundant_hierarchy edges)) y b := by
            intro y hyb
            induction hyb using Relation.ReflTransGen.head_induction_on with
            | refl => intro _; exact .refl
            | @head y' c' hyc hcb ihc =>
              intro hay
              have hmid := interval_lt_mid hA hab hay hcb
              have hKyc := ihn y' c' (by omega) hyc
              have hac : Relation.TransGen (hierRel edges) a c' :=
                Relation.TransGen.tail hay hyc
              exact hKyc.to_reflTransGen.trans (ihc hac)
          exact Relation.TransGen.trans_left hKax
            (hwalk x hxb' (Relation.TransGen.single hax.1))
    constructor
    · intro h
      induction h with
      | refl => exact .refl
      | @tail b' c' hub harc ih =>
        exact ih.trans (main (reachInterval edges b' c' + 1) b' c'
          (by omega) harc).to_reflTransGen
    · intro h
      refine Relation.ReflTransGen.mono ?_ h
      intro x y hxy
      exact ((hierRel_prune_iff ..).mp hxy).1

/-- The acyclic chain A→B→C plus the shortcut A→C of §8 of the spec. -/
def chainEdges : List Edge :=
  [{ source := "A", target := "B", relation := "HAS_PART" },
   { source := "B", target := "C", relation := "HAS_PART" },
   { source := "A", target := "C", relation := "HAS_PART" }]

/-- A topological rank for `chainEdges`. -/
def rankABC (s : String) : Nat := if s = "A" then 0 else if s = "B" then 1 else 2

/-- Witness for C4_reducer_amended at the concrete acyclic chain: the
surviving edge A→B has no surviving alternate path, and reachability A to C
is preserved across the reduction. -/
theorem C4_reducer_amended_witness :
    (¬ Relation.TransGen
        (hierRelMinus (prune_redundant_hierarchy chainEdges) "A" "B") "A" "B") ∧
    (Relation.ReflTransGen (hierRel chainEdges) "A" "C" ↔
      Relation.ReflTransGen (hierRel (prune_redundant_hierarchy chainEdges))
        "A" "C") := by
  have hacyc : ∀ z, ¬ Relation.TransGen (hierRel chainEdges) z z := by
    refine acyclic_of_rank rankABC ?_
    rintro a b ⟨e, he, -, rfl, rfl⟩
    fin_cases he <;> decide
  constructor
  · have h1 := (C4_reducer_amended chainEdges).1
      { source := "A", target := "B", relation := "HAS_PART" }
      (by decide) (by decide)
    exact h1
  · exact (C4_reducer_amended chainEdges).2 hacyc "A" "C"

/-! ## The ingestion pipeline (`__main__`, graph_builder.py lines 249-289)

The executable part of `graph_builder.py` performs, in order:
exercise-id normalization, implicit-edge generation, explicit+implicit
merge with triple dedup, transitive reduction, and edge validation; the
resulting node list and validated edge list are then handed to the store
(`setup_schema`, `ingest_nodes`, `ingest_relationships`).  `build_pipeline`
models everything up to the store hand-off: an `ok` result is exactly the
data the store receives; an error aborts before any store call.  Faithful
to the source, `validate_no_cycles` is *not* invoked anywhere on this
path — the function is defined at lines 19-46 but the orchestrator never
calls it. -/

/-- Pipeline steps 1-5 of `__main__`; the `ok` payload is what the store
ingests. -/
def build_pipeline (nodes : List Node) (explicit_edges : List Edge) :
    Except String (List Node × List Edge) :=
  let nodes' := normalize_exercise_ids nodes
  let implicit_edges := generate_implicit_relationships nodes'
  let combined_edges := combine_edges (explicit_edges ++ implicit_edges)
  let pruned_edges := prune_redundant_hierarchy combined_edges
  match validate_edges nodes' pruned_edges with
  | .error msg => .error msg
  | .ok final_edges => .ok (nodes', final_edges)

/-- Claim C1, failing input: on the two-node prerequisite cycle X⇄Y the
pipeline runs to completion and hands the store a final edge set that the
repository's own `validate_no_cycles` rejects.  The orchestrator never
invokes the cycle check, so a REQUIRES cycle does not abort the run before
the store is called, contradicting the claim (and the spec's stated
intent, for which the dead `validate_no_cycles` function was evidently
written). -/
theorem C1_store_reached_despite_cycle :
    (build_pipeline [{ id := "X" }, { id := "Y" }]
        [{ source := "X", target := "Y", relation := "REQUIRES" },
         { source := "Y", target := "X", relation := "REQUIRES" }] =
      .ok ([{ id := "X" }, { id := "Y" }],
        [{ source := "X", target := "Y", relation := "REQUIRES" },
         { source := "Y", target := "X", relation := "REQUIRES" }])) ∧
    validate_no_cycles
        [{ source := "X", target := "Y", relation := "REQUIRES" },
         { source := "Y", target := "X", relation := "REQUIRES" }] =
      .error "Y" := by
  constructor <;> rfl

end Trellis
